import Mathlib

/-!
# Verification of the GTSAM linear elimination / incremental update core

This file gives a shallow embedding, over `ℚ` (and `ℝ` where the code uses
`log`/`exp`), of the parts of the repository relevant to the frozen claims:

* a symbolic elimination model (`Symbolic` namespace), modelled from the spec
  since `EliminateSymbolic` itself is not among the source files, only its
  test `TEST(SymbolicFactor, EliminateSymbolic)`;
* a Jacobian-factor model with a QR-style triangularization
  (`Jac` namespace), modelled from the spec (§4.2/§4.3) since
  `JacobianFactor::eliminate` is not among the source files, only its tests;
* the ordered Gaussian Bayes net functions `optimizeInPlace`, `matrix` and
  `determinant` (`BN` namespace), embedded from `GaussianBayesNet.cpp`
  (appended inside `src/gtsam/nonlinear/NonlinearISAM.h`);
* `conditionDensity` (`BN` namespace), embedded from `conditioning.cpp`
  (appended inside `src/gtsam_unstable/nonlinear/LinearizedFactor.h`).
-/

namespace GtsamCore

/-! ## Symbolic elimination (modelled from the spec, §4.4)

`Modelled from the spec:` the implementation of `EliminateSymbolic` is not in
the source excerpt; only its test is.  Per §4.4 (multi-frontal variant), the
factors touching any frontal variable are combined (union of their key sets),
the conditional takes the frontal variables followed by the separator, and the
remaining factor is the separator. -/

namespace Symbolic

/-- Insert a key into a sorted key list, keeping it sorted. -/
def insertKey (x : ℕ) : List ℕ → List ℕ
  | [] => [x]
  | y :: ys => if x ≤ y then x :: y :: ys else y :: insertKey x ys

/-- Sort a key list ascending (insertion sort). -/
def sortKeys (l : List ℕ) : List ℕ := l.foldr insertKey []

/-- A symbolic conditional: ordered keys, first `nrFrontals` of which are
frontal variables, the rest parents. -/
structure SymbolicConditional where
  keys : List ℕ
  nrFrontals : ℕ
  deriving DecidableEq

/-- Does a symbolic factor (key list) touch any of the frontal variables? -/
def touches (f : List ℕ) (frontals : List ℕ) : Bool :=
  f.any (fun k => frontals.contains k)

/-- Modelled from the spec: symbolic multi-frontal elimination (§4.4).
Combine the factors touching a frontal variable; the separator is the union of
their keys minus the frontals; emit one conditional (frontals then separator)
and one remaining factor over the separator. -/
def EliminateSymbolic (factors : List (List ℕ)) (frontals : List ℕ) :
    SymbolicConditional × List ℕ :=
  let involved := factors.filter (fun f => touches f frontals)
  let allKeys := sortKeys involved.flatten.dedup
  let separator := allKeys.filter (fun k => ¬ frontals.contains k)
  ({ keys := frontals ++ separator, nrFrontals := frontals.length }, separator)

/-- Frontal keys of a symbolic conditional. -/
def SymbolicConditional.frontalKeys (c : SymbolicConditional) : List ℕ :=
  c.keys.take c.nrFrontals

/-- Parent keys of a symbolic conditional. -/
def SymbolicConditional.parentKeys (c : SymbolicConditional) : List ℕ :=
  c.keys.drop c.nrFrontals

end Symbolic

/-! ## Jacobian factors and QR-style elimination (modelled from the spec)

`Modelled from the spec:` `JacobianFactor::eliminate`, `error`,
`unweighted_error` and the noise-model whitening are not in the source
excerpt; only their tests are (`testJacobianFactorUnordered.cpp`).  They are
modelled from §4.2/§4.3 of the spec over `ℚ`.  A factor stores its augmented
matrix `[A | b]` as a list of rows, its keys with the per-key block widths,
and an optional diagonal noise model (sigmas plus a constrained flag). -/

namespace Jac

/-- A Jacobian factor: keys with parallel block widths, the augmented matrix
`[A | b]` as rows of length `dims.sum + 1`, and an optional noise model
`(sigmas, constrained)`; `none` means unit/already-whitened noise. -/
structure JacobianFactor where
  keys : List ℕ
  dims : List ℕ
  Ab : List (List ℚ)
  model : Option (List ℚ × Bool)
  deriving DecidableEq

/-- Total scalar column dimension (excluding the RHS column). -/
def JacobianFactor.totalDim (f : JacobianFactor) : ℕ := f.dims.sum

/-- Total scalar dimension of the first `nf` (frontal) variables. -/
def JacobianFactor.frontalDim (f : JacobianFactor) (nf : ℕ) : ℕ :=
  (f.dims.take nf).sum

/-- Whitening of the rows: divide each row by its sigma (spec §4.2); the
constrained path keeps raw rows (zero-tolerance rows cannot be whitened),
absent model means already whitened. -/
def JacobianFactor.whitened (f : JacobianFactor) : List (List ℚ) :=
  match f.model with
  | none => f.Ab
  | some (s, c) =>
      if c then f.Ab
      else List.zipWith (fun σ row => row.map (fun a => a / σ)) s f.Ab

/-- Find a pivot row for column `j`: the first remaining row with a nonzero
entry in column `j`, returned together with the other rows in order. -/
def findPivot (j : ℕ) : List (List ℚ) → Option (List ℚ × List (List ℚ))
  | [] => none
  | r :: rs =>
      if r.getD j 0 ≠ 0 then some (r, rs)
      else match findPivot j rs with
        | none => none
        | some (p, rest) => some (p, r :: rest)

/-- Zero out column `j` of `row` using the pivot row. -/
def reduceRow (piv : List ℚ) (j : ℕ) (row : List ℚ) : List ℚ :=
  let c := row.getD j 0 / piv.getD j 0
  List.zipWith (fun x y => x - c * y) row piv

/-- Modelled from the spec: QR-style triangularization (§4.3) of the first
`p` scalar columns starting at column `j`.  For each frontal column a pivot
row is selected and moved to the conditional part and the column is zeroed in
the other rows; the rows left over become the remaining factor.  Returns
`none` unless every frontal column eliminates exactly (has a pivot). -/
def triangularizeFrom (j : ℕ) : ℕ → List (List ℚ) →
    Option (List (List ℚ) × List (List ℚ))
  | 0, rows => some ([], rows)
  | p + 1, rows =>
      match findPivot j rows with
      | none => none
      | some (piv, rest) =>
          match triangularizeFrom (j + 1) p (rest.map (reduceRow piv j)) with
          | none => none
          | some (cond, rem) => some (piv :: cond, rem)

/-- The conditional produced by elimination: keys (frontals then separator),
the triangular rows `[R | S | d]`, and the sigma vector. -/
structure ElimConditional where
  keys : List ℕ
  nrFrontals : ℕ
  rows : List (List ℚ)
  sigmas : List ℚ
  deriving DecidableEq

/-- Modelled from the spec: eliminate the first `nf` variables of a single
Jacobian factor (§4.3).  Succeeds iff all frontal columns eliminate exactly;
the conditional receives the triangular rows with unit sigmas (the `oldSigma`
convention) or zero sigmas under a fully-constrained model (§4.2); the
remaining factor keeps the leftover rows with the frontal columns dropped. -/
def JacobianFactor.eliminate (f : JacobianFactor) (nf : ℕ) :
    Option (ElimConditional × JacobianFactor) :=
  let p := f.frontalDim nf
  match triangularizeFrom 0 p f.whitened with
  | none => none
  | some (cond, rem) =>
      let isCon := match f.model with
        | some (_, c) => c
        | none => false
      some ({ keys := f.keys, nrFrontals := nf, rows := cond,
              sigmas := List.replicate p (if isCon then 0 else 1) },
            { keys := f.keys.drop nf, dims := f.dims.drop nf,
              Ab := rem.map (List.drop p), model := none })

/-- Well-formedness of a factor: when a noise model is present its dimension
equals the row count (invariant of §3). -/
def JacobianFactor.WF (f : JacobianFactor) : Prop :=
  match f.model with
  | none => True
  | some (s, _) => s.length = f.Ab.length

instance (f : JacobianFactor) : Decidable f.WF := by
  unfold JacobianFactor.WF
  match f.model with
  | none => exact inferInstanceAs (Decidable True)
  | some (s, _) => exact inferInstanceAs (Decidable (_ = _))

/-! ### Error computation (modelled from the spec, §4.3)

`Modelled from the spec:` `JacobianFactor::error`, `unweighted_error` and
`error_vector` are not in the source excerpt; only the test
`TEST(JacobianFactor, error)` is.  The model computes the factor error in a
single row-wise pass; the spec's description — `0.5 * ||whiten(A·x − b)||²`,
with `unweightedError` omitting the whitening — is stated from independently
defined pieces (`matVecQ`, `whitenVec`, `sqNormQ`) and proved against it. -/

/-- Dot product of two rational vectors (truncating to the shorter). -/
def dotQ (a b : List ℚ) : ℚ := (List.zipWith (· * ·) a b).sum

/-- The values of the factor's variables, stacked in key order. -/
def JacobianFactor.stackValues (f : JacobianFactor) (xv : ℕ → List ℚ) :
    List ℚ := (f.keys.map xv).flatten

/-- Residual of one augmented row at the stacked values: `a·x − b`. -/
def rowResidual (td : ℕ) (x : List ℚ) (row : List ℚ) : ℚ :=
  dotQ (row.take td) x - row.getD td 0

/-- The noise sigmas, defaulting to unit noise when the model is absent. -/
def JacobianFactor.sigmasOrOnes (f : JacobianFactor) : List ℚ :=
  match f.model with
  | none => List.replicate f.Ab.length 1
  | some (s, _) => s

/-- Modelled from the spec: the factor error, computed row-wise in one
pass — half the sum over rows of the squared whitened residual. -/
def JacobianFactor.error (f : JacobianFactor) (xv : ℕ → List ℚ) : ℚ :=
  (1 / 2) * (List.zipWith
    (fun σ row =>
      let e := rowResidual f.totalDim (f.stackValues xv) row
      (e / σ) * (e / σ)) f.sigmasOrOnes f.Ab).sum

/-- Modelled from the spec: the unwhitened error vector `A·x − b`. -/
def JacobianFactor.unweighted_error (f : JacobianFactor) (xv : ℕ → List ℚ) :
    List ℚ := f.Ab.map (rowResidual f.totalDim (f.stackValues xv))

/-- Generic matrix-vector product over row lists. -/
def matVecQ (rows : List (List ℚ)) (x : List ℚ) : List ℚ :=
  rows.map (fun r => dotQ r x)

/-- The coefficient matrix `A` of the factor (augmented matrix minus RHS). -/
def JacobianFactor.Amat (f : JacobianFactor) : List (List ℚ) :=
  f.Ab.map (List.take f.totalDim)

/-- The right-hand side `b` of the factor. -/
def JacobianFactor.bvec (f : JacobianFactor) : List ℚ :=
  f.Ab.map (fun r => r.getD f.totalDim 0)

/-- The residual `A·x − b` assembled from the generic pieces. -/
def JacobianFactor.residual (f : JacobianFactor) (xv : ℕ → List ℚ) : List ℚ :=
  List.zipWith (· - ·) (matVecQ f.Amat (f.stackValues xv)) f.bvec

/-- Whitening of a residual vector by the factor's noise model (§4.2). -/
def JacobianFactor.whitenVec (f : JacobianFactor) (e : List ℚ) : List ℚ :=
  match f.model with
  | none => e
  | some (s, _) => List.zipWith (fun σ v => v / σ) s e

/-- Squared Euclidean norm of a rational vector. -/
def sqNormQ (l : List ℚ) : ℚ := (l.map (fun v => v * v)).sum

/-! ### Concrete instances from the tests in the source -/

/-- The linear constraint of `TEST(JacobianFactor, constraint_eliminate1)`:
a 2x2 identity block on variable 1, RHS `[1.2, 3.4]`, fully-constrained
noise model (`noiseModel::Constrained::All(2)`). -/
def lcEx : JacobianFactor :=
  { keys := [1], dims := [2], Ab := [[1, 0, 6/5], [0, 1, 17/5]],
    model := some ([0, 0], true) }

/-- A small two-variable factor used to witness the elimination row-count
theorem. -/
def jfEx : JacobianFactor :=
  { keys := [0, 1], dims := [1, 1], Ab := [[1, 0, 2], [1, 1, 3], [0, 1, 1]],
    model := none }

/-- The conditional produced by eliminating variable 0 of `jfEx`. -/
def jfCondEx : ElimConditional :=
  { keys := [0, 1], nrFrontals := 1, rows := [[1, 0, 2]], sigmas := [1] }

/-- The remaining factor produced by eliminating variable 0 of `jfEx`. -/
def jfRemEx : JacobianFactor :=
  { keys := [1], dims := [1], Ab := [[1, 1], [1, 1]], model := none }

/-- The factor of `TEST(JacobianFactor, error)`: identity, doubled and
tripled 3x3 identity blocks on keys 5, 10, 15, RHS `[1,2,3]`, sigmas `0.5`. -/
def errEx : JacobianFactor :=
  { keys := [5, 10, 15], dims := [3, 3, 3],
    Ab := [[1, 0, 0, 2, 0, 0, 3, 0, 0, 1],
           [0, 1, 0, 0, 2, 0, 0, 3, 0, 2],
           [0, 0, 1, 0, 0, 2, 0, 0, 3, 3]],
    model := some ([1/2, 1/2, 1/2], false) }

/-- The values assignment of `TEST(JacobianFactor, error)`. -/
def errExValues : ℕ → List ℚ := fun k =>
  if k = 5 then [1, 1, 1]
  else if k = 10 then [1/2, 1/2, 1/2]
  else if k = 15 then [1/3, 1/3, 1/3]
  else []

end Jac

/-! ## Gaussian Bayes nets (embedded from `GaussianBayesNet.cpp`)

The functions `optimizeInPlace`, `matrix` and `determinant` are embedded from
the `GaussianBayesNet.cpp` translation unit appended inside
`src/gtsam/nonlinear/NonlinearISAM.h`; `conditionDensity` is embedded from the
`conditioning.cpp` translation unit appended inside
`src/gtsam_unstable/nonlinear/LinearizedFactor.h`.  A
`GaussianConditionalOrdered` stores frontal and parent variables (key/dim
pairs) and the augmented block matrix `[R | S_1 ... S_k | d]` over its
`fdim`-many rows, plus a sigma vector — represented here as total functions
out of `ℕ`, read only inside the stated bounds. -/

namespace BN

/-- An ordered-era Gaussian conditional: frontal `(key, dim)` pairs, parent
`(key, dim)` pairs, the augmented matrix `[R | S_1 … S_k | d]` (row `i`,
column `j`), and the sigma vector. -/
structure GaussianConditional where
  frontals : List (ℕ × ℕ)
  parents : List (ℕ × ℕ)
  rsd : ℕ → ℕ → ℚ
  sigmas : ℕ → ℚ

instance : Inhabited GaussianConditional :=
  ⟨⟨[], [], fun _ _ => 0, fun _ => 0⟩⟩

/-- Total frontal scalar dimension (row count, `R` is `fdim × fdim`). -/
def fdim (c : GaussianConditional) : ℕ := (c.frontals.map Prod.snd).sum

/-- Total parent scalar dimension. -/
def pdim (c : GaussianConditional) : ℕ := (c.parents.map Prod.snd).sum

/-- The frontal variable keys, in order. -/
def frontalKeys (c : GaussianConditional) : List ℕ := c.frontals.map Prod.fst

/-- The parent variable keys, in order. -/
def parentKeys (c : GaussianConditional) : List ℕ := c.parents.map Prod.fst

/-- Entry `(i, j)` of the triangular block `R` (`get_R`). -/
def getR (c : GaussianConditional) (i j : ℕ) : ℚ := c.rsd i j

/-- Entry `i` of the right-hand side `d` (`get_d`). -/
def getd (c : GaussianConditional) (i : ℕ) : ℚ := c.rsd i (fdim c + pdim c)

/-- The parents paired with the scalar column offset of their `S` block
(offset counted from the start of the `S` region). -/
def parentOffsets : List (ℕ × ℕ) → ℕ → List ((ℕ × ℕ) × ℕ)
  | [], _ => []
  | (k, d) :: rest, off => ((k, d), off) :: parentOffsets rest (off + d)

/-- A (partial) vector-values assignment: per-key optional value vectors. -/
def VectorValues : Type := ℕ → Option (List ℚ)

/-! ### `optimizeInPlace` (C4)

The traversal order is embedded from the source (`BOOST_REVERSE_FOREACH` in
`optimizeInPlace`).  `Modelled from the spec:` the per-conditional
`solveInPlace` is not in the source excerpt; per §4.5 it computes
`x_frontal = R⁻¹ · (d·sigmas⁻¹ − Σ S_i · x_parent_i)` by back-substitution
and rescales by sigmas. -/

/-- Row `i` of `Σ S_i · x_parents` against the stacked parent values. -/
def smatVecRow (c : GaussianConditional) (parVals : List ℚ) (i : ℕ) : ℚ :=
  ((List.range (pdim c)).map
    (fun j => c.rsd i (fdim c + j) * parVals.getD j 0)).sum

/-- One step of upper-triangular back-substitution: prepend `x_i` given the
already-solved tail `acc = [x_{i+1}, …]`. -/
def backSolveStep (R : ℕ → ℕ → ℚ) (rhs : ℕ → ℚ) (i : ℕ) (acc : List ℚ) :
    List ℚ :=
  ((rhs i
    - ((List.range acc.length).map (fun t => R i (i + 1 + t) * acc.getD t 0)).sum)
    / R i i) :: acc

/-- Back-substitution on the trailing `k` rows of an `n × n` upper-triangular
system. -/
def backSolveAux (R : ℕ → ℕ → ℚ) (rhs : ℕ → ℚ) (n : ℕ) : ℕ → List ℚ
  | 0 => []
  | k + 1 => backSolveStep R rhs (n - (k + 1)) (backSolveAux R rhs n k)

/-- Solve an `n × n` upper-triangular system by back-substitution. -/
def backSolve (R : ℕ → ℕ → ℚ) (rhs : ℕ → ℚ) (n : ℕ) : List ℚ :=
  backSolveAux R rhs n n

/-- Modelled from the spec: the frontal solution of one conditional given
the stacked values of its parents (§4.5): back-substitute
`R x = d·sigmas⁻¹ − Σ S_i·x_parent_i`, then rescale by sigmas. -/
def solveVec (c : GaussianConditional) (parVals : List ℚ) : List ℚ :=
  let y := backSolve c.rsd
    (fun i => getd c i * (c.sigmas i)⁻¹ - smatVecRow c parVals i) (fdim c)
  (List.range (fdim c)).map (fun i => c.sigmas i * y.getD i 0)

/-- The stacked values of a conditional's parents under an assignment. -/
def parentVals (c : GaussianConditional) (x : VectorValues) : List ℚ :=
  (c.parents.map (fun kd => (x kd.1).getD [])).flatten

/-- The stacked values of a conditional's frontals under an assignment. -/
def gatherFrontals (c : GaussianConditional) (x : VectorValues) : List ℚ :=
  (c.frontals.map (fun kd => (x kd.1).getD [])).flatten

/-- Distribute a solved frontal vector over the frontal variables. -/
def assignFrontals : List (ℕ × ℕ) → List ℚ → VectorValues → VectorValues
  | [], _, x => x
  | (k, d) :: rest, v, x =>
      assignFrontals rest (v.drop d)
        (fun k' => if k' = k then some (v.take d) else x k')

/-- Solve one conditional in place: assign its frontals from the solved
vector against the current parent values (`cg->solveInPlace(x)`). -/
def solveStep (x : VectorValues) (c : GaussianConditional) : VectorValues :=
  assignFrontals c.frontals (solveVec c (parentVals c x)) x

/-- Embeds `optimizeInPlace`: solve each conditional in turn, traversing the net in
reverse storage order (`BOOST_REVERSE_FOREACH` in the source). -/
def optimizeInPlace (bn : List GaussianConditional) (x : VectorValues) :
    VectorValues :=
  bn.reverse.foldl solveStep x

/-- The state after the first `t` conditionals of the solve traversal. -/
def solveState (bn : List GaussianConditional) (x : VectorValues) (t : ℕ) :
    VectorValues :=
  (bn.reverse.take t).foldl solveStep x

/-- Bayes-net structural invariant: the frontal keys of all conditionals are
pairwise distinct. -/
def FrontalsNodup (bn : List GaussianConditional) : Prop :=
  ((bn.map frontalKeys).flatten).Nodup

/-- Bayes-net structural invariant (no external parents): every parent of
every conditional appears as a frontal of a conditional stored strictly
later. -/
def ClosedParents (bn : List GaussianConditional) : Prop :=
  ∀ i, i < bn.length → ∀ pk ∈ parentKeys (bn.getD i default),
    ∃ j, j < bn.length ∧ i < j ∧ pk ∈ frontalKeys (bn.getD j default)

instance (bn : List GaussianConditional) : Decidable (FrontalsNodup bn) := by
  unfold FrontalsNodup
  infer_instance

instance (bn : List GaussianConditional) : Decidable (ClosedParents bn) := by
  unfold ClosedParents
  infer_instance

/-! ### `matrix()` (C5)

Embedded from `matrix(const GaussianBayesNetOrdered&)`.  The first pass maps
every frontal key to a consecutive scalar row/column offset (in storage
order) and accumulates `N`; the second pass iterates the mapping in ascending
key order (`std::map` iteration) and copies each conditional's
`R`, `S` and `d` entries, each divided by the row's sigma, into an `N × N`
zero-initialized matrix.  A parent key missing from the mapping reads offset
`0` (`std::map::operator[]` default-inserts a zero value). -/

/-- Offsets of a conditional's frontal keys starting at `acc`. -/
def frontalOffsets : List (ℕ × ℕ) → ℕ → List (ℕ × ℕ)
  | [], _ => []
  | (k, d) :: rest, acc => (k, acc) :: frontalOffsets rest (acc + d)

/-- First pass of `matrix()`: map every frontal key of the net to its scalar
offset, walking the net in storage order. -/
def mkMappingAux : List GaussianConditional → ℕ → List (ℕ × ℕ)
  | [], _ => []
  | c :: cs, acc => frontalOffsets c.frontals acc ++ mkMappingAux cs (acc + fdim c)

/-- The key-to-offset mapping of `matrix()`. -/
def mkMapping (bn : List GaussianConditional) : List (ℕ × ℕ) :=
  mkMappingAux bn 0

/-- The matrix dimension `N` (total frontal scalar dimension). -/
def mappingN (bn : List GaussianConditional) : ℕ := (bn.map fdim).sum

/-- The total frontal dimension of the first `idx` conditionals (the row
offset at which conditional `idx` starts). -/
def prefixF (bn : List GaussianConditional) (idx : ℕ) : ℕ :=
  ((bn.take idx).map fdim).sum

/-- Insert a key/offset pair into a key-sorted list. -/
def insertPair (p : ℕ × ℕ) : List (ℕ × ℕ) → List (ℕ × ℕ)
  | [] => [p]
  | q :: qs => if p.1 ≤ q.1 then p :: q :: qs else q :: insertPair p qs

/-- Sort key/offset pairs by key (the `std::map` iteration order). -/
def sortPairs (l : List (ℕ × ℕ)) : List (ℕ × ℕ) := l.foldr insertPair []

/-- Lookup of a key's offset in the `std::map`; a missing key reads the
value-initialized offset `0` (`operator[]` default-insertion). -/
def mapLookup (m : List (ℕ × ℕ)) (k : ℕ) : ℕ :=
  ((m.find? (fun p => p.1 == k)).map Prod.snd).getD 0

/-- Lookup `bn[key]`: the conditional having `key` among its frontals. -/
def findConditional (bn : List GaussianConditional) (k : ℕ) :
    Option GaussianConditional :=
  bn.find? (fun c => (frontalKeys c).contains k)

/-- The `(row, column, value)` writes `matrix()` performs for one mapping
entry `(key, I)`: the full `R` block of `bn[key]` at `(I, I)` and, for each
parent, its `S` block at `(I, J)` with `J` the parent's mapped offset; every
value is divided by the row's sigma. -/
def condWrites (bn : List GaussianConditional) (m : List (ℕ × ℕ))
    (key I : ℕ) : List (ℕ × ℕ × ℚ) :=
  match findConditional bn key with
  | none => []
  | some cg =>
      let n := fdim cg
      ((List.range n).flatMap (fun i => (List.range n).map
          (fun j => (I + i, I + j, getR cg i j / cg.sigmas i))))
        ++ ((parentOffsets cg.parents 0).flatMap (fun po =>
              let J := mapLookup m po.1.1
              (List.range n).flatMap (fun i => (List.range po.1.2).map
                (fun j => (I + i, J + j,
                  cg.rsd i (n + po.2 + j) / cg.sigmas i)))))

/-- All `R`-matrix writes of `matrix()`, in `std::map` iteration order. -/
def matrixWrites (bn : List GaussianConditional) : List (ℕ × ℕ × ℚ) :=
  let m := mkMapping bn
  (sortPairs m).flatMap (fun p => condWrites bn m p.1 p.2)

/-- Apply a list of `(row, column, value)` writes to a matrix. -/
def applyWrites (M : ℕ × ℕ → ℚ) : List (ℕ × ℕ × ℚ) → (ℕ × ℕ → ℚ)
  | [] => M
  | w :: ws =>
      applyWrites (fun p => if p = (w.1, w.2.1) then w.2.2 else M p) ws

/-- The reconstructed `R` matrix of `matrix()` (zero-initialized, then all
block writes applied). -/
def matrixR (bn : List GaussianConditional) : ℕ × ℕ → ℚ :=
  applyWrites (fun _ => 0) (matrixWrites bn)

/-- The reconstructed right-hand side `d` of `matrix()`. -/
def matrixD (bn : List GaussianConditional) : ℕ → ℚ := fun r =>
  (((sortPairs (mkMapping bn)).flatMap (fun p =>
      match findConditional bn p.1 with
      | none => []
      | some cg => (List.range (fdim cg)).map
          (fun i => (p.2 + i, getd cg i / cg.sigmas i)))).foldl
    (fun D w => fun r' => if r' = w.1 then w.2 else D r') (fun _ => 0)) r

/-! ### `determinant` (C6)

Embedded from `determinant(const GaussianBayesNetOrdered&)`: it sums the
logarithms of the diagonal entries of every conditional's `R` matrix and
exponentiates the total.  The diagonal entries live in `ℚ` in this model and
are cast to `ℝ` for `log`/`exp`. -/

/-- The diagonal entries of a conditional's `R` matrix. -/
def diagEntries (c : GaussianConditional) : List ℚ :=
  (List.range (fdim c)).map (fun i => getR c i i)

/-- Sum of the logarithms of one conditional's `R` diagonal
(`get_R().diagonal().unaryExpr(log).sum()`). -/
noncomputable def logDetConditional (c : GaussianConditional) : ℝ :=
  ((diagEntries c).map (fun q : ℚ => Real.log (q : ℝ))).sum

/-- Embeds `determinant`: the exponential of the summed log-diagonals. -/
noncomputable def determinant (bn : List GaussianConditional) : ℝ :=
  Real.exp ((bn.map logDetConditional).sum)

/-- The product of the diagonal entries of all conditionals' `R` matrices
(what the spec says `determinant` returns). -/
def diagProd (bn : List GaussianConditional) : ℝ :=
  (bn.map (fun c => ((diagEntries c).map (fun q : ℚ => (q : ℝ))).prod)).prod

/-! ### `conditionDensity` (C7, C8, C10)

Embedded from `conditionDensity(initConditional, saved_indices, solution)` in
the `conditioning.cpp` translation unit.  A null input pointer is modelled as
`none`. -/

/-- Frontal entries annotated with their old frontal index and old scalar
column offset. -/
def frontalsInfo : List (ℕ × ℕ) → ℕ → ℕ → List ((ℕ × ℕ) × ℕ × ℕ)
  | [], _, _ => []
  | (k, d) :: rest, idx, off => ((k, d), idx, off) :: frontalsInfo rest (idx + 1) (off + d)

/-- Locate the block containing scalar position `x` in a list of entries with
the given widths; returns the entry and the offset within its block. -/
def locateInfo {α : Type} (dimOf : α → ℕ) : List α → ℕ → Option (α × ℕ)
  | [], _ => none
  | a :: rest, x =>
      if x < dimOf a then some (a, x) else locateInfo dimOf rest (x - dimOf a)

/-- The rebuilt (summarized) conditional of `conditionDensity`'s general
branch: keep the saved frontals and parents; copy their `R` and `S` blocks
row-block by row-block; push the solved values of removed later frontals and
removed parents into the right-hand side. -/
def reduceConditional (c : GaussianConditional) (saved : List ℕ)
    (solution : ℕ → List ℚ) : GaussianConditional :=
  let oldF := frontalsInfo c.frontals 0 0
  let oldP := parentOffsets c.parents 0
  let keptF := oldF.filter (fun e => saved.contains e.1.1)
  let keptP := oldP.filter (fun p => saved.contains p.1.1)
  let newFdim := (keptF.map (fun e => e.1.2)).sum
  let newPdim := (keptP.map (fun p => p.1.2)).sum
  { frontals := keptF.map (fun e => e.1)
    parents := keptP.map (fun p => p.1)
    rsd := fun r col =>
      match locateInfo (fun e => e.1.2) keptF r with
      | none => 0
      | some (eR, i) =>
          let oldRow := eR.2.2 + i
          if col < newFdim then
            match locateInfo (fun e => e.1.2) keptF col with
            | none => 0
            | some (eC, j) =>
                if eR.2.1 ≤ eC.2.1 then c.rsd oldRow (eC.2.2 + j) else 0
          else if col < newFdim + newPdim then
            match locateInfo (fun p => p.1.2) keptP (col - newFdim) with
            | none => 0
            | some (pC, j) => c.rsd oldRow (fdim c + pC.2 + j)
          else if col = newFdim + newPdim then
            getd c oldRow
              - ((oldF.filter
                    (fun e => eR.2.1 < e.2.1 ∧ ¬ saved.contains e.1.1)).map
                  (fun e => ((List.range e.1.2).map (fun j =>
                    c.rsd oldRow (e.2.2 + j) * (solution e.1.1).getD j 0)).sum)).sum
              - ((oldP.filter (fun p => ¬ saved.contains p.1.1)).map
                  (fun p => ((List.range p.1.2).map (fun j =>
                    c.rsd oldRow (fdim c + p.2 + j) * (solution p.1.1).getD j 0)).sum)).sum
          else 0
    sigmas := fun r =>
      match locateInfo (fun e => e.1.2) keptF r with
      | none => 0
      | some (eR, i) => c.sigmas (eR.2.2 + i) }

/-- Embeds `conditionDensity`: a null conditional passes through; if every frontal
and parent is saved the input is returned unchanged; if no frontal is saved
the result is absent; otherwise the conditional is rebuilt over the saved
variables with the removed ones solved into the right-hand side. -/
def conditionDensity (initConditional : Option GaussianConditional)
    (saved : List ℕ) (solution : ℕ → List ℚ) : Option GaussianConditional :=
  match initConditional with
  | none => none
  | some c =>
      let frontalsToRemove := (frontalKeys c).filter (fun k => ¬ saved.contains k)
      let parentsToRemove := (parentKeys c).filter (fun k => ¬ saved.contains k)
      if frontalsToRemove.isEmpty ∧ parentsToRemove.isEmpty then some c
      else if frontalsToRemove.length = c.frontals.length then none
      else some (reduceConditional c saved solution)

/-! ### Concrete Bayes-net instances -/

/-- A 1-dimensional conditional on variable 0 with parent 1:
`[R | S | d] = [2 | 1 | 3]`, unit sigma. -/
def cA : GaussianConditional :=
  { frontals := [(0, 1)], parents := [(1, 1)],
    rsd := fun i j => if i = 0 then [2, 1, 3].getD j 0 else 0,
    sigmas := fun _ => 1 }

/-- A 1-dimensional root conditional on variable 1: `[R | d] = [4 | 8]`,
unit sigma. -/
def cB : GaussianConditional :=
  { frontals := [(1, 1)], parents := [],
    rsd := fun i j => if i = 0 then [4, 8].getD j 0 else 0,
    sigmas := fun _ => 1 }

/-- A two-conditional Bayes net in elimination (storage) order: variable 0
first, its parent 1 eliminated later. -/
def bnW : List GaussianConditional := [cA, cB]

/-- A root conditional on variable 1 with no parents: `[R | d] = [1 | 1]`. -/
def cBad0 : GaussianConditional :=
  { frontals := [(1, 1)], parents := [],
    rsd := fun i j => if i = 0 then [1, 1].getD j 0 else 0,
    sigmas := fun _ => 1 }

/-- A conditional on variable 2 whose parent 0 is external (no conditional
for key 0 exists in the net): `[R | S | d] = [1 | 5 | 1]`. -/
def cBad1 : GaussianConditional :=
  { frontals := [(2, 1)], parents := [(0, 1)],
    rsd := fun i j => if i = 0 then [1, 5, 1].getD j 0 else 0,
    sigmas := fun _ => 1 }

/-- A Bayes net that satisfies the data-model invariant of §3 (an external
parent is allowed) but breaks the upper-triangularity of `matrix()`. -/
def bnBad : List GaussianConditional := [cBad0, cBad1]

/-- A single conditional whose `R` has the negative diagonal entry `-1`. -/
def cNeg : GaussianConditional :=
  { frontals := [(0, 1)], parents := [],
    rsd := fun _ _ => -1, sigmas := fun _ => 1 }

/-- A one-conditional net with a negative `R` diagonal (QR does produce
negative diagonal entries, cf. `TEST(JacobianFactor, EliminateQROrdered)`). -/
def bnNeg : List GaussianConditional := [cNeg]

/-- A single conditional whose `R` has the positive diagonal entry `2`. -/
def cPos : GaussianConditional :=
  { frontals := [(0, 1)], parents := [],
    rsd := fun _ _ => 2, sigmas := fun _ => 1 }

/-- A one-conditional net with a positive `R` diagonal. -/
def bnPos : List GaussianConditional := [cPos]

/-- A conditional used by the `conditionDensity` witnesses: frontal 3 of
dimension 2, parent 7 of dimension 1. -/
def cdEx : GaussianConditional :=
  { frontals := [(3, 2)], parents := [(7, 1)],
    rsd := fun i j => if i = 0 then [1, 2, 3, 4].getD j 0
                      else if i = 1 then [0, 5, 6, 7].getD j 0 else 0,
    sigmas := fun _ => 1 }

/-- A solution assignment for the `conditionDensity` witnesses. -/
def cdSol : ℕ → List ℚ := fun _ => [1]

/-- The all-unassigned starting state. -/
def x0W : VectorValues := fun _ => none

end BN

/-! ## Theorems -/

namespace Jac

/-- Zipping a list with itself is a pointwise map. -/
theorem zipWith_self_map {α β : Type} (F : α → α → β) :
    ∀ l : List α, List.zipWith F l l = l.map (fun a => F a a) := by
  intro l
  induction l with
  | nil => rfl
  | cons a l ih => simp [ih]

/-- Whitening with unit sigmas squares to a plain map of squares. -/
theorem zipWith_sq_replicate_one (F : List ℚ → ℚ) (l : List (List ℚ)) :
    List.zipWith (fun σ row => (F row / σ) * (F row / σ))
      (List.replicate l.length (1 : ℚ)) l
      = (l.map F).map (fun v => v * v) := by
  induction l with
  | nil => rfl
  | cons r l ih => simp [List.replicate_succ, ih]

/-- Row-fused whiten-and-square equals whitening the residual vector and
then squaring. -/
theorem zipWith_sq_div (F : List ℚ → ℚ) :
    ∀ (s : List ℚ) (l : List (List ℚ)),
      List.zipWith (fun σ row => (F row / σ) * (F row / σ)) s l
        = (List.zipWith (fun σ v => v / σ) s (l.map F)).map (fun v => v * v) := by
  intro s
  induction s with
  | nil => intro l; rfl
  | cons σ s ih =>
      intro l
      cases l with
      | nil => rfl
      | cons r l => simp [ih]

/-- Pointwise subtraction of two maps over the same list is one map. -/
theorem zipWith_sub_map_map {α : Type} (g h : α → ℚ) :
    ∀ l : List α,
      List.zipWith (· - ·) (l.map g) (l.map h) = l.map (fun a => g a - h a) := by
  intro l
  induction l with
  | nil => rfl
  | cons a l ih => simp [ih]

/-- C9: for every Jacobian factor (coefficients `A`, right-hand side `b`,
noise model) and every values assignment `x`, `error x` equals
`0.5 * ||whiten(A·x − b)||²`, and the unweighted error equals `A·x − b` with
no whitening applied. -/
theorem error_matches_whitened_norm (f : JacobianFactor) (xv : ℕ → List ℚ) :
    f.error xv = (1 / 2) * sqNormQ (f.whitenVec (f.unweighted_error xv)) ∧
    f.unweighted_error xv = f.residual xv := by
  constructor
  · unfold JacobianFactor.error JacobianFactor.whitenVec
      JacobianFactor.unweighted_error JacobianFactor.sigmasOrOnes sqNormQ
    cases f.model with
    | none => rw [zipWith_sq_replicate_one]
    | some sc => rw [zipWith_sq_div]
  · unfold JacobianFactor.unweighted_error JacobianFactor.residual matVecQ
      JacobianFactor.Amat JacobianFactor.bvec
    rw [List.map_map, zipWith_sub_map_map]
    rfl

/-- The error model reproduces `TEST(JacobianFactor, error)`: unwhitened
residual `[2,1,0]`, whitened residual `[4,2,0]`, error `10`. -/
theorem errEx_values_check :
    errEx.unweighted_error errExValues = [2, 1, 0] ∧
    errEx.whitenVec (errEx.unweighted_error errExValues) = [4, 2, 0] ∧
    errEx.error errExValues = 10 := by
  refine ⟨?_, ?_, ?_⟩ <;>
    norm_num [errEx, errExValues, JacobianFactor.unweighted_error,
      JacobianFactor.whitenVec, JacobianFactor.error, JacobianFactor.totalDim,
      JacobianFactor.stackValues, JacobianFactor.sigmasOrOnes, rowResidual,
      dotQ]

/-- A successful pivot search removes exactly one row. -/
theorem findPivot_length {j : ℕ} :
    ∀ {rows : List (List ℚ)} {piv rest},
      findPivot j rows = some (piv, rest) → rest.length + 1 = rows.length := by
  intro rows
  induction rows with
  | nil => intro piv rest h; simp [findPivot] at h
  | cons r rs ih =>
      intro piv rest h
      simp only [findPivot] at h
      split at h
      · simp only [Option.some.injEq, Prod.mk.injEq] at h
        obtain ⟨-, h2⟩ := h
        subst h2
        rfl
      · cases heq : findPivot j rs with
        | none => rw [heq] at h; exact absurd h (by simp)
        | some pr =>
            obtain ⟨p, rest'⟩ := pr
            rw [heq] at h
            simp only [Option.some.injEq, Prod.mk.injEq] at h
            obtain ⟨-, h2⟩ := h
            subst h2
            have := ih heq
            simp only [List.length_cons]
            omega

/-- A successful triangularization of `p` frontal columns produces `p`
conditional rows and keeps the total row count. -/
theorem triangularizeFrom_length :
    ∀ (p j : ℕ) {rows cond rem : List (List ℚ)},
      triangularizeFrom j p rows = some (cond, rem) →
      cond.length = p ∧ rem.length + p = rows.length := by
  intro p
  induction p with
  | zero =>
      intro j rows cond rem h
      simp only [triangularizeFrom, Option.some.injEq, Prod.mk.injEq] at h
      obtain ⟨h1, h2⟩ := h
      subst h1; subst h2
      simp
  | succ p ih =>
      intro j rows cond rem h
      simp only [triangularizeFrom] at h
      split at h
      · exact absurd h (by simp)
      · next piv rest hp =>
          split at h
          · exact absurd h (by simp)
          · next cond' rem' ht =>
              simp only [Option.some.injEq, Prod.mk.injEq] at h
              obtain ⟨h1, h2⟩ := h
              subst h1; subst h2
              obtain ⟨hc, hr⟩ := ih (j + 1) ht
              have hfp := findPivot_length hp
              rw [List.length_map] at hr
              constructor
              · simp [hc]
              · omega

/-- Whitening does not change the row count of a well-formed factor. -/
theorem whitened_length (f : JacobianFactor) (hwf : f.WF) :
    f.whitened.length = f.Ab.length := by
  unfold JacobianFactor.WF at hwf
  unfold JacobianFactor.whitened
  cases hm : f.model with
  | none => rfl
  | some sc =>
      obtain ⟨s, c⟩ := sc
      rw [hm] at hwf
      by_cases hc : c = true
      · simp [hc]
      · simp only [Bool.not_eq_true] at hc
        simp [hc, List.length_zipWith, hwf]

/-- C1: for every well-formed Jacobian factor whose frontal columns all
eliminate exactly (elimination succeeds), the remaining factor returned by
`eliminate` has `total_rows − frontal_dim` rows. -/
theorem eliminate_remaining_rowcount (f : JacobianFactor) (nf : ℕ)
    (c : ElimConditional) (r : JacobianFactor) (hwf : f.WF)
    (h : f.eliminate nf = some (c, r)) :
    r.Ab.length = f.Ab.length - f.frontalDim nf := by
  simp only [JacobianFactor.eliminate] at h
  split at h
  · exact absurd h (by simp)
  · next cond rem ht =>
      simp only [Option.some.injEq, Prod.mk.injEq] at h
      obtain ⟨-, h2⟩ := h
      subst h2
      obtain ⟨-, hr⟩ := triangularizeFrom_length (f.frontalDim nf) 0 ht
      rw [whitened_length f hwf] at hr
      simp only [List.length_map]
      omega

/-- The factor `jfEx` is well-formed (it has no noise model). -/
theorem jfEx_wf : jfEx.WF := by
  simp [jfEx, JacobianFactor.WF]

/-- Eliminating variable 0 of `jfEx` succeeds with the expected output. -/
theorem jfEx_eliminate_eq : jfEx.eliminate 1 = some (jfCondEx, jfRemEx) := by
  norm_num [jfEx, jfCondEx, jfRemEx, JacobianFactor.eliminate,
    JacobianFactor.whitened, JacobianFactor.frontalDim, triangularizeFrom,
    findPivot, reduceRow, List.replicate]

/-- Witness for C1 at a concrete factor: eliminating variable 0 of the
3-row factor `jfEx` leaves `3 − 1 = 2` remaining rows. -/
theorem eliminate_remaining_rowcount_witness :
    jfEx.WF ∧ jfEx.eliminate 1 = some (jfCondEx, jfRemEx) ∧
    jfRemEx.Ab.length = jfEx.Ab.length - jfEx.frontalDim 1 :=
  ⟨jfEx_wf, jfEx_eliminate_eq,
    eliminate_remaining_rowcount jfEx 1 jfCondEx jfRemEx jfEx_wf
      jfEx_eliminate_eq⟩

/-- C2: eliminating variable 1 from the single constrained factor with a 2x2
identity coefficient block, RHS `[1.2, 3.4]` and a fully-constrained noise
model yields a conditional with `R = I`, `d = [1.2, 3.4]`,
`sigmas = [0, 0]`, and a remaining factor with zero rows. -/
theorem constraint_eliminate1_check :
    lcEx.eliminate 1 =
      some ({ keys := [1], nrFrontals := 1,
              rows := [[1, 0, 6/5], [0, 1, 17/5]], sigmas := [0, 0] },
            { keys := [], dims := [], Ab := [], model := none }) := by
  norm_num [lcEx, JacobianFactor.eliminate, JacobianFactor.whitened,
    JacobianFactor.frontalDim, triangularizeFrom, findPivot, reduceRow,
    List.replicate]

end Jac

/-- C3: symbolically eliminating `{0,1,2,3}` from the graph with factors
over `{2,4,6}`, `{1,2,5}` and `{0,3}` leaves exactly one remaining factor
over `{4,5,6}` and one conditional with frontals `{0,1,2,3}` and parents
`{4,5,6}`. -/
theorem eliminateSymbolic_scenarioA :
    (Symbolic.EliminateSymbolic [[2,4,6],[1,2,5],[0,3]] [0,1,2,3]).1.frontalKeys
        = [0, 1, 2, 3] ∧
    (Symbolic.EliminateSymbolic [[2,4,6],[1,2,5],[0,3]] [0,1,2,3]).1.parentKeys
        = [4, 5, 6] ∧
    (Symbolic.EliminateSymbolic [[2,4,6],[1,2,5],[0,3]] [0,1,2,3]).2
        = [4, 5, 6] := by decide

namespace BN

/-- C10: `conditionDensity` applied to an absent (null) conditional returns
the absent conditional unchanged, for every saved-index set and solution. -/
theorem conditionDensity_absent (saved : List ℕ) (solution : ℕ → List ℚ) :
    conditionDensity none saved solution = none := rfl

/-- C7: if the saved indices contain every frontal and every parent variable
of a present conditional, `conditionDensity` returns the identical
conditional unchanged. -/
theorem conditionDensity_all_saved (c : GaussianConditional) (saved : List ℕ)
    (solution : ℕ → List ℚ)
    (h : ∀ k ∈ frontalKeys c ++ parentKeys c, k ∈ saved) :
    conditionDensity (some c) saved solution = some c := by
  have hf : ((frontalKeys c).filter (fun k => ¬ saved.contains k)).isEmpty
      = true := by
    rw [List.isEmpty_iff, List.filter_eq_nil_iff]
    intro a ha
    have ham : a ∈ saved := h a (List.mem_append_left _ ha)
    simp [List.elem_iff, ham]
  have hp : ((parentKeys c).filter (fun k => ¬ saved.contains k)).isEmpty
      = true := by
    rw [List.isEmpty_iff, List.filter_eq_nil_iff]
    intro a ha
    have ham : a ∈ saved := h a (List.mem_append_right _ ha)
    simp [List.elem_iff, ham]
  simp only [conditionDensity]
  rw [if_pos ⟨hf, hp⟩]

/-- Witness for C7: saving both variables of the concrete conditional `cdEx`
returns it unchanged. -/
theorem conditionDensity_all_saved_witness :
    (∀ k ∈ frontalKeys cdEx ++ parentKeys cdEx, k ∈ [3, 7]) ∧
    conditionDensity (some cdEx) [3, 7] cdSol = some cdEx :=
  ⟨by decide, conditionDensity_all_saved cdEx [3, 7] cdSol (by decide)⟩

/-- C8: if a present conditional has at least one frontal variable and none
of its frontal variables is saved (all frontals are marginalized out),
`conditionDensity` returns the absent conditional `none` — distinguishable
from a present-but-trivial conditional. -/
theorem conditionDensity_no_frontal_saved (c : GaussianConditional)
    (saved : List ℕ) (solution : ℕ → List ℚ) (hne : c.frontals ≠ [])
    (h : ∀ k ∈ frontalKeys c, k ∉ saved) :
    conditionDensity (some c) saved solution = none := by
  have hf : (frontalKeys c).filter (fun k => ¬ saved.contains k)
      = frontalKeys c := by
    rw [List.filter_eq_self]
    intro a ha
    have ham : a ∉ saved := h a ha
    simp [List.elem_iff, ham]
  have hfe : ((frontalKeys c).filter (fun k => ¬ saved.contains k)).isEmpty
      = false := by
    rw [hf]
    cases hc : c.frontals with
    | nil => exact absurd hc hne
    | cons a l => simp [frontalKeys, hc]
  have hlen : ((frontalKeys c).filter (fun k => ¬ saved.contains k)).length
      = c.frontals.length := by
    rw [hf]
    simp [frontalKeys]
  simp only [conditionDensity]
  rw [if_neg, if_pos hlen]
  rw [hfe]
  simp

/-- Witness for C8: saving only the parent of the concrete conditional
`cdEx` (frontal 3 unsaved) yields an absent conditional. -/
theorem conditionDensity_no_frontal_saved_witness :
    cdEx.frontals ≠ [] ∧ (∀ k ∈ frontalKeys cdEx, k ∉ [7]) ∧
    conditionDensity (some cdEx) [7] cdSol = none :=
  ⟨by decide, by decide,
    conditionDensity_no_frontal_saved cdEx [7] cdSol (by decide) (by decide)⟩

/-! ### C5: upper-triangularity of `matrix()` -/

/-- If a matrix is zero strictly below the diagonal and every write strictly
below the diagonal writes a zero, the written matrix stays zero strictly
below the diagonal. -/
theorem applyWrites_below_zero :
    ∀ (ws : List (ℕ × ℕ × ℚ)) (M : ℕ × ℕ → ℚ),
      (∀ r c, c < r → M (r, c) = 0) →
      (∀ w ∈ ws, w.2.1 < w.1 → w.2.2 = 0) →
      ∀ r c, c < r → applyWrites M ws (r, c) = 0 := by
  intro ws
  induction ws with
  | nil => intro M hM _ r c h; exact hM r c h
  | cons w ws ih =>
      intro M hM hws r c h
      simp only [applyWrites]
      apply ih
      · intro r' c' h'
        by_cases he : ((r', c') : ℕ × ℕ) = (w.1, w.2.1)
        · simp only [he, if_pos rfl]
          simp only [Prod.mk.injEq] at he
          exact hws w (List.mem_cons_self _ _) (by omega)
        · simp only [if_neg he]
          exact hM r' c' h'
      · intro w' hw'
        exact hws w' (List.mem_cons_of_mem _ hw')
      · exact h

/-- Membership in an insertion step of the pair sort. -/
theorem mem_insertPair (x p : ℕ × ℕ) :
    ∀ l, x ∈ insertPair p l ↔ x = p ∨ x ∈ l := by
  intro l
  induction l with
  | nil => simp [insertPair]
  | cons q qs ih =>
      simp only [insertPair]
      split
      · simp [List.mem_cons]
      · simp only [List.mem_cons, ih]
        tauto

/-- Sorting the mapping by key preserves its entries. -/
theorem mem_sortPairs (x : ℕ × ℕ) : ∀ l, x ∈ sortPairs l ↔ x ∈ l := by
  intro l
  induction l with
  | nil => simp [sortPairs]
  | cons p l ih =>
      simp only [sortPairs, List.foldr_cons] at *
      rw [mem_insertPair, ih]
      simp [List.mem_cons]

/-- The keys of the frontal-offset list are the frontal keys. -/
theorem frontalOffsets_map_fst :
    ∀ (l : List (ℕ × ℕ)) (acc : ℕ),
      (frontalOffsets l acc).map Prod.fst = l.map Prod.fst := by
  intro l
  induction l with
  | nil => intro acc; rfl
  | cons kd l ih =>
      intro acc
      obtain ⟨k, d⟩ := kd
      simp [frontalOffsets, ih]

/-- The keys of the offset mapping are all frontal keys of the net. -/
theorem mkMappingAux_map_fst :
    ∀ (bn : List GaussianConditional) (acc : ℕ),
      (mkMappingAux bn acc).map Prod.fst = (bn.map frontalKeys).flatten := by
  intro bn
  induction bn with
  | nil => intro acc; rfl
  | cons c cs ih =>
      intro acc
      simp [mkMappingAux, frontalOffsets_map_fst, ih, frontalKeys]

/-- For a net of single-frontal conditionals, the mapping entries are
exactly the frontal keys at their conditional's prefix offset. -/
theorem mem_mkMappingAux (bn : List GaussianConditional)
    (h1 : ∀ c ∈ bn, c.frontals.length = 1) :
    ∀ (acc k I : ℕ), ((k, I) ∈ mkMappingAux bn acc ↔
      ∃ idx, idx < bn.length ∧ k ∈ frontalKeys (bn.getD idx default) ∧
        I = acc + prefixF bn idx) := by
  induction bn with
  | nil => intro acc k I; simp [mkMappingAux]
  | cons c cs ih =>
      intro acc k I
      have hc1 : c.frontals.length = 1 := h1 c (by simp)
      obtain ⟨kd, hkd⟩ : ∃ kd, c.frontals = [kd] := by
        cases hcf : c.frontals with
        | nil => rw [hcf] at hc1; simp at hc1
        | cons a l =>
            cases l with
            | nil => exact ⟨a, rfl⟩
            | cons b m => rw [hcf] at hc1; simp at hc1
      obtain ⟨k0, d0⟩ := kd
      have hfd : fdim c = d0 := by simp [fdim, hkd]
      constructor
      · intro h
        simp only [mkMappingAux, hkd, frontalOffsets, List.mem_append,
          List.mem_singleton, Prod.mk.injEq] at h
        rcases h with ⟨hk, hI⟩ | h
        · refine ⟨0, by simp, ?_, ?_⟩
          · simp [frontalKeys, hkd, hk]
          · simp [prefixF, hI]
        · obtain ⟨idx, hidx, hk, hI⟩ :=
            (ih (fun c' hc' => h1 c' (by simp [hc'])) (acc + fdim c) k I).mp h
          refine ⟨idx + 1, by simpa using Nat.succ_lt_succ hidx, ?_, ?_⟩
          · simpa using hk
          · rw [hI]
            simp only [prefixF, List.take_succ_cons, List.map_cons,
              List.sum_cons]
            omega
      · intro h
        obtain ⟨idx, hidx, hk, hI⟩ := h
        cases idx with
        | zero =>
            simp only [List.getD_cons_zero, frontalKeys, hkd, List.map_cons,
              List.map_nil, List.mem_singleton] at hk
            simp only [prefixF, List.take_zero, List.map_nil, List.sum_nil,
              Nat.add_zero] at hI
            simp [mkMappingAux, hkd, frontalOffsets, hk, hI]
        | succ idx =>
            simp only [List.getD_cons_succ] at hk
            have hI' : I = (acc + fdim c) + prefixF cs idx := by
              rw [hI]
              simp only [prefixF, List.take_succ_cons, List.map_cons,
                List.sum_cons]
              omega
            have hmem := (ih (fun c' hc' => h1 c' (by simp [hc']))
              (acc + fdim c) k I).mpr ⟨idx, by simpa using hidx, hk, hI'⟩
            simp [mkMappingAux, hkd, frontalOffsets, hmem]

/-- In a mapping with distinct keys, `find?` locates a present entry. -/
theorem find?_pair_eq :
    ∀ (m : List (ℕ × ℕ)) (k I : ℕ), (m.map Prod.fst).Nodup →
      (k, I) ∈ m → m.find? (fun p => p.1 == k) = some (k, I) := by
  intro m
  induction m with
  | nil => intro k I _ h; simp at h
  | cons q m ih =>
      intro k I hnd h
      obtain ⟨k', I'⟩ := q
      simp only [List.map_cons, List.nodup_cons] at hnd
      obtain ⟨hk', hnd'⟩ := hnd
      rcases List.mem_cons.mp h with h | h
      · simp only [Prod.mk.injEq] at h
        obtain ⟨h1, h2⟩ := h
        subst h1; subst h2
        exact List.find?_cons_of_pos _ (by simp)
      · have hkm : k ∈ m.map Prod.fst := List.mem_map_of_mem _ h
        have hkne : ((k' : ℕ) == k) = false := by
          simp only [beq_eq_false_iff_ne, ne_eq]
          intro hkk
          exact hk' (hkk ▸ hkm)
        simp only [List.find?_cons, hkne, cond_false]
        exact ih k I hnd' h

/-- In a mapping with distinct keys, the lookup reads a present entry. -/
theorem mapLookup_eq (m : List (ℕ × ℕ)) (k I : ℕ)
    (hnd : (m.map Prod.fst).Nodup) (hmem : (k, I) ∈ m) :
    mapLookup m k = I := by
  unfold mapLookup
  rw [find?_pair_eq m k I hnd hmem]
  rfl

/-- Lookup `bn[key]` finds the (unique) conditional holding `key` as frontal. -/
theorem findConditional_eq (bn : List GaussianConditional)
    (hnd : FrontalsNodup bn) :
    ∀ idx, idx < bn.length → ∀ k, k ∈ frontalKeys (bn.getD idx default) →
      findConditional bn k = some (bn.getD idx default) := by
  induction bn with
  | nil => intro idx hidx; simp at hidx
  | cons c cs ih =>
      intro idx hidx k hk
      cases idx with
      | zero =>
          simp only [List.getD_cons_zero] at hk ⊢
          unfold findConditional
          exact List.find?_cons_of_pos _ (by simp [List.elem_iff, hk])
      | succ idx =>
          simp only [List.getD_cons_succ] at hk ⊢
          have hlen : idx < cs.length := by simpa using hidx
          have hnd' : FrontalsNodup cs := by
            unfold FrontalsNodup at hnd ⊢
            simp only [List.map_cons, List.flatten_cons] at hnd
            exact hnd.of_append_right
          have hk2 : k ∈ (cs.map frontalKeys).flatten := by
            rw [List.getD_eq_getElem cs default hlen] at hk
            exact List.mem_flatten.mpr
              ⟨frontalKeys cs[idx],
                List.mem_map_of_mem _ (List.getElem_mem hlen), hk⟩
          have hkc : k ∉ frontalKeys c := by
            unfold FrontalsNodup at hnd
            simp only [List.map_cons, List.flatten_cons] at hnd
            intro hkk
            exact List.disjoint_of_nodup_append hnd hkk hk2
          unfold findConditional
          rw [List.find?_cons_of_neg _ (by simp [List.elem_iff, hkc])]
          exact ih hnd' idx hlen k hk

/-- The row offset of the next conditional adds its frontal dimension. -/
theorem prefixF_succ (bn : List GaussianConditional) (idx : ℕ)
    (h : idx < bn.length) :
    prefixF bn (idx + 1) = prefixF bn idx + fdim (bn.getD idx default) := by
  unfold prefixF
  rw [← List.take_concat_get' bn idx h, List.map_append, List.sum_append]
  simp [List.getD, List.getElem?_eq_getElem h]

/-- Row offsets are monotone in the conditional index. -/
theorem prefixF_le (bn : List GaussianConditional) :
    ∀ a b, a ≤ b → prefixF bn a ≤ prefixF bn b := by
  intro a b hab
  induction b with
  | zero =>
      have h0 : a = 0 := by omega
      subst h0
      exact le_rfl
  | succ b ih =>
      by_cases hb1 : a = b + 1
      · subst hb1; exact le_rfl
      · have ha : a ≤ b := by omega
        have hstep : prefixF bn b ≤ prefixF bn (b + 1) := by
          by_cases hb : b < bn.length
          · rw [prefixF_succ bn b hb]
            exact Nat.le_add_right _ _
          · unfold prefixF
            rw [List.take_of_length_le (by omega),
              List.take_of_length_le (by omega)]
        exact le_trans (ih ha) hstep

/-- An entry of the parent-offset list is one of the parents. -/
theorem mem_parentOffsets :
    ∀ (l : List (ℕ × ℕ)) (off : ℕ) (po : (ℕ × ℕ) × ℕ),
      po ∈ parentOffsets l off → po.1 ∈ l := by
  intro l
  induction l with
  | nil => intro off po h; simp [parentOffsets] at h
  | cons kd rest ih =>
      intro off po h
      obtain ⟨k, d⟩ := kd
      simp only [parentOffsets, List.mem_cons] at h
      rcases h with h | h
      · simp [h]
      · exact List.mem_cons_of_mem _ (ih _ po h)

/-- C5 (amended): for every Gaussian Bayes net whose conditionals each have
a single frontal variable, whose frontal keys are pairwise distinct, whose
parents all appear as frontals of later conditionals (no external parents),
and whose `R` blocks are upper-triangular, the matrix reconstructed by
`matrix()` is exactly upper-triangular: every entry strictly below the main
diagonal is zero. -/
theorem matrix_upper_triangular (bn : List GaussianConditional)
    (h1 : ∀ c ∈ bn, c.frontals.length = 1)
    (hnd : FrontalsNodup bn) (hcl : ClosedParents bn)
    (hut : ∀ c ∈ bn, ∀ i j, i < fdim c → j < i → c.rsd i j = 0) :
    ∀ r col, col < r → matrixR bn (r, col) = 0 := by
  have hmain : ∀ w ∈ matrixWrites bn, w.2.1 < w.1 → w.2.2 = 0 := by
    intro w hw hwlt
    simp only [matrixWrites] at hw
    obtain ⟨p, hp, hw⟩ := List.mem_flatMap.mp hw
    obtain ⟨k, I⟩ := p
    have hpm : (k, I) ∈ mkMapping bn := (mem_sortPairs _ _).mp hp
    obtain ⟨idx, hidx, hkf, hI⟩ := (mem_mkMappingAux bn h1 0 k I).mp hpm
    rw [Nat.zero_add] at hI
    have hfind : findConditional bn k = some (bn.getD idx default) :=
      findConditional_eq bn hnd idx hidx k hkf
    have hcmem : bn.getD idx default ∈ bn := by
      rw [List.getD_eq_getElem bn default hidx]
      exact List.getElem_mem hidx
    simp only [condWrites, hfind] at hw
    rw [List.mem_append] at hw
    rcases hw with hw | hw
    · simp only [List.mem_flatMap, List.mem_map, List.mem_range] at hw
      obtain ⟨i, hi, j, hj, hwv⟩ := hw
      subst hwv
      simp only at hwlt
      have hji : j < i := by omega
      simp only [getR]
      rw [hut _ hcmem i j hi hji]
      exact zero_div _
    · simp only [List.mem_flatMap, List.mem_map, List.mem_range] at hw
      obtain ⟨po, hpo, i, hi, j, hj, hwv⟩ := hw
      have hpk : po.1.1 ∈ parentKeys (bn.getD idx default) :=
        List.mem_map_of_mem _ (mem_parentOffsets _ _ _ hpo)
      obtain ⟨jdx, hjdx, hij, hkj⟩ := hcl idx hidx po.1.1 hpk
      have hmemJ : (po.1.1, prefixF bn jdx) ∈ mkMapping bn :=
        (mem_mkMappingAux bn h1 0 po.1.1 _).mpr
          ⟨jdx, hjdx, hkj, (Nat.zero_add _).symm⟩
      have hndkeys : ((mkMapping bn).map Prod.fst).Nodup := by
        unfold mkMapping
        rw [mkMappingAux_map_fst]
        exact hnd
      have hJ : mapLookup (mkMapping bn) po.1.1 = prefixF bn jdx :=
        mapLookup_eq _ _ _ hndkeys hmemJ
      have hIJ : I + fdim (bn.getD idx default) ≤ prefixF bn jdx := by
        rw [hI, ← prefixF_succ bn idx hidx]
        exact prefixF_le bn (idx + 1) jdx (by omega)
      subst hwv
      simp only [hJ] at hwlt
      omega
  intro r col hlt
  exact applyWrites_below_zero (matrixWrites bn) _ (fun _ _ _ => rfl)
    hmain r col hlt

/-- Witness for C5 (amended) on the two-conditional net `bnW` (single
frontals, distinct keys, closed parents, upper-triangular `R` blocks): its
reconstructed matrix has only zeros strictly below the diagonal. -/
theorem matrix_upper_triangular_witness :
    (∀ c ∈ bnW, c.frontals.length = 1) ∧ FrontalsNodup bnW ∧
    ClosedParents bnW ∧
    (∀ c ∈ bnW, ∀ i j, i < fdim c → j < i → c.rsd i j = 0) ∧
    (∀ r col, col < r → matrixR bnW (r, col) = 0) :=
  have hut : ∀ c ∈ bnW, ∀ i j, i < fdim c → j < i → c.rsd i j = 0 := by
    intro c hc i j hi hj
    simp only [bnW, List.mem_cons, List.mem_singleton, List.not_mem_nil,
      or_false] at hc
    rcases hc with rfl | rfl
    · simp only [cA, fdim, List.map_cons, List.map_nil, List.sum_cons,
        List.sum_nil] at hi ⊢
      omega
    · simp only [cB, fdim, List.map_cons, List.map_nil, List.sum_cons,
        List.sum_nil] at hi ⊢
      omega
  ⟨by decide, by decide, by decide, hut,
    matrix_upper_triangular bnW (by decide) (by decide) (by decide) hut⟩

/-! ### C4: the back-substitution traversal of `optimizeInPlace` -/

/-- Evaluating one more step of a fold over a prefix. -/
theorem foldl_take_succ {α β : Type} [Inhabited α] (g : β → α → β) :
    ∀ (l : List α) (t : ℕ), t < l.length → ∀ (x : β),
      (l.take (t + 1)).foldl g x = g ((l.take t).foldl g x) (l.getD t default) := by
  intro l
  induction l with
  | nil => intro t ht; simp at ht
  | cons a l ih =>
      intro t ht x
      cases t with
      | zero => simp
      | succ t =>
          simp only [List.take_succ_cons, List.foldl_cons, List.getD_cons_succ]
          exact ih t (by simpa using ht) (g x a)

/-- Assigning frontal values leaves every other key unchanged. -/
theorem assignFrontals_other (k : ℕ) :
    ∀ (fr : List (ℕ × ℕ)) (v : List ℚ) (x : VectorValues),
      k ∉ fr.map Prod.fst → assignFrontals fr v x k = x k := by
  intro fr
  induction fr with
  | nil => intro v x _; rfl
  | cons kd fr ih =>
      intro v x h
      obtain ⟨k0, d⟩ := kd
      simp only [List.map_cons, List.mem_cons] at h
      push_neg at h
      obtain ⟨h1, h2⟩ := h
      simp only [assignFrontals]
      rw [ih _ _ h2]
      simp [h1]

/-- Assigning frontal values gives every assigned key a value. -/
theorem assignFrontals_isSome (k : ℕ) :
    ∀ (fr : List (ℕ × ℕ)) (v : List ℚ) (x : VectorValues),
      k ∈ fr.map Prod.fst → (assignFrontals fr v x k).isSome := by
  intro fr
  induction fr with
  | nil => intro v x h; simp at h
  | cons kd fr ih =>
      intro v x h
      obtain ⟨k0, d⟩ := kd
      by_cases hk : k ∈ fr.map Prod.fst
      · exact ih _ _ hk
      · have hk0 : k = k0 := by
          simp only [List.map_cons, List.mem_cons] at h
          tauto
        simp only [assignFrontals]
        rw [assignFrontals_other k fr _ _ hk]
        simp [hk0]

/-- A solve step keeps every already-assigned key assigned. -/
theorem solveStep_preserves (x : VectorValues) (c : GaussianConditional)
    (k : ℕ) (h : (x k).isSome) : ((solveStep x c) k).isSome := by
  by_cases hk : k ∈ c.frontals.map Prod.fst
  · exact assignFrontals_isSome k _ _ _ hk
  · unfold solveStep
    rw [assignFrontals_other k _ _ _ hk]
    exact h

/-- A solve step assigns every frontal key of its conditional. -/
theorem solveStep_solves (x : VectorValues) (c : GaussianConditional) (k : ℕ)
    (hk : k ∈ frontalKeys c) : ((solveStep x c) k).isSome :=
  assignFrontals_isSome k c.frontals _ x hk

/-- Reading the frontal values back after assigning them recovers the
assigned vector. -/
theorem gather_assignFrontals :
    ∀ (fr : List (ℕ × ℕ)) (v : List ℚ) (x : VectorValues),
      (fr.map Prod.fst).Nodup → v.length = (fr.map Prod.snd).sum →
      (fr.map (fun kd => ((assignFrontals fr v x) kd.1).getD [])).flatten
        = v := by
  intro fr
  induction fr with
  | nil =>
      intro v x _ hv
      simp only [List.map_nil, List.sum_nil] at hv
      simp [List.length_eq_zero.mp hv]
  | cons kd fr ih =>
      intro v x hnd hv
      obtain ⟨k0, d⟩ := kd
      simp only [List.map_cons, List.nodup_cons] at hnd
      obtain ⟨hk0, hnd'⟩ := hnd
      simp only [List.map_cons, List.sum_cons] at hv
      simp only [List.map_cons, List.flatten_cons, assignFrontals]
      rw [assignFrontals_other k0 fr _ _ hk0]
      simp only [Option.getD_some, if_pos rfl]
      rw [ih (v.drop d) _ hnd' (by simp [hv])]
      exact List.take_append_drop d v

/-- The solved frontal vector has the conditional's total frontal length. -/
theorem solveVec_length (c : GaussianConditional) (pv : List ℚ) :
    (solveVec c pv).length = (c.frontals.map Prod.snd).sum := by
  simp [solveVec, fdim]

/-- After `t` solve steps, every frontal key of an earlier-processed
conditional has a value. -/
theorem procState_isSome (l : List GaussianConditional) (x0 : VectorValues) :
    ∀ t, t ≤ l.length → ∀ k,
      (∃ s, s < t ∧ k ∈ frontalKeys (l.getD s default)) →
      (((l.take t).foldl solveStep x0) k).isSome := by
  intro t
  induction t with
  | zero => intro _ k h; obtain ⟨s, hs, -⟩ := h; omega
  | succ t ih =>
      intro ht k h
      have htl : t < l.length := by omega
      rw [foldl_take_succ solveStep l t htl]
      obtain ⟨s, hs, hk⟩ := h
      by_cases hst : s = t
      · subst hst
        exact solveStep_solves _ _ _ hk
      · exact solveStep_preserves _ _ _ (ih (by omega) k ⟨s, by omega, hk⟩)

/-- A key not frontal in any conditional processed between `t` and `t'`
keeps its value between the two states. -/
theorem procState_stable (l : List GaussianConditional) (x0 : VectorValues)
    (k : ℕ) (t : ℕ) :
    ∀ t', t ≤ t' → t' ≤ l.length →
      (∀ s, t ≤ s → s < t' → k ∉ frontalKeys (l.getD s default)) →
      ((l.take t').foldl solveStep x0) k
        = ((l.take t).foldl solveStep x0) k := by
  intro t'
  induction t' with
  | zero =>
      intro h1 _ _
      have h0 : t = 0 := by omega
      subst h0
      rfl
  | succ t' ih =>
      intro h1 h2 h3
      by_cases htt : t = t' + 1
      · subst htt; rfl
      · have h1' : t ≤ t' := by omega
        have htl : t' < l.length := by omega
        rw [foldl_take_succ solveStep l t' htl]
        unfold solveStep
        rw [assignFrontals_other k _ _ _ (h3 t' h1' (by omega))]
        exact ih h1' (by omega) (fun s hs hs' => h3 s hs (by omega))

/-- Distinct conditionals of a net with pairwise-distinct frontal keys have
disjoint frontal-key sets. -/
theorem frontalKeys_disjoint (l : List GaussianConditional)
    (hnd : FrontalsNodup l) {s t : ℕ} (hs : s < l.length) (ht : t < l.length)
    (hst : s ≠ t) (k : ℕ) (hks : k ∈ frontalKeys (l.getD s default)) :
    k ∉ frontalKeys (l.getD t default) := by
  unfold FrontalsNodup at hnd
  rw [List.nodup_flatten] at hnd
  obtain ⟨-, hpw⟩ := hnd
  rw [List.pairwise_iff_getElem] at hpw
  intro hkt
  rw [List.getD_eq_getElem l default hs] at hks
  rw [List.getD_eq_getElem l default ht] at hkt
  rcases Nat.lt_or_ge s t with h | h
  · have hd := hpw s t (by simpa using hs) (by simpa using ht) h
    rw [List.getElem_map, List.getElem_map] at hd
    exact hd hks hkt
  · have hst' : t < s := by omega
    have hd := hpw t s (by simpa using ht) (by simpa using hs) hst'
    rw [List.getElem_map, List.getElem_map] at hd
    exact hd hkt hks

/-- Each conditional of a net with pairwise-distinct frontal keys has
duplicate-free frontal keys. -/
theorem frontalKeys_nodup_at (l : List GaussianConditional)
    (hnd : FrontalsNodup l) {t : ℕ} (ht : t < l.length) :
    (frontalKeys (l.getD t default)).Nodup := by
  unfold FrontalsNodup at hnd
  rw [List.nodup_flatten] at hnd
  obtain ⟨h1, -⟩ := hnd
  apply h1
  rw [List.getD_eq_getElem l default ht]
  exact List.mem_map_of_mem _ (List.getElem_mem ht)

/-- Gathered frontal values only depend on the assignment at the frontal
keys. -/
theorem gatherFrontals_congr (c : GaussianConditional) (x y : VectorValues)
    (h : ∀ k ∈ frontalKeys c, x k = y k) :
    gatherFrontals c x = gatherFrontals c y := by
  unfold gatherFrontals
  congr 1
  apply List.map_congr_left
  intro kd hkd
  rw [h kd.1 (List.mem_map_of_mem _ hkd)]

/-- Stacked parent values only depend on the assignment at the parent
keys. -/
theorem parentVals_congr (c : GaussianConditional) (x y : VectorValues)
    (h : ∀ k ∈ parentKeys c, x k = y k) :
    parentVals c x = parentVals c y := by
  unfold parentVals
  congr 1
  apply List.map_congr_left
  intro kd hkd
  rw [h kd.1 (List.mem_map_of_mem _ hkd)]

/-- The generic correctness of the solve traversal: over any processing list
whose parents are frontals of earlier-processed conditionals, every parent is
assigned when its conditional is reached, and each conditional's final
frontal values are exactly its back-substituted solution against the final
parent values. -/
theorem foldl_solve_spec (l : List GaussianConditional) (x0 : VectorValues)
    (hnd : FrontalsNodup l)
    (hpe : ∀ t, t < l.length → ∀ pk ∈ parentKeys (l.getD t default),
      ∃ s, s < t ∧ pk ∈ frontalKeys (l.getD s default)) :
    (∀ t, t < l.length → ∀ pk ∈ parentKeys (l.getD t default),
      (((l.take t).foldl solveStep x0) pk).isSome) ∧
    (∀ t, t < l.length →
      gatherFrontals (l.getD t default) (l.foldl solveStep x0)
        = solveVec (l.getD t default)
            (parentVals (l.getD t default) (l.foldl solveStep x0))) := by
  have hfinal : l.foldl solveStep x0 = (l.take l.length).foldl solveStep x0 := by
    rw [List.take_length]
  constructor
  · intro t ht pk hpk
    exact procState_isSome l x0 t (le_of_lt ht) pk (hpe t ht pk hpk)
  · intro t ht
    have hstabF : ∀ k ∈ frontalKeys (l.getD t default),
        (l.foldl solveStep x0) k
          = ((l.take (t + 1)).foldl solveStep x0) k := by
      intro k hk
      rw [hfinal]
      apply procState_stable l x0 k (t + 1) l.length (by omega) le_rfl
      intro s hs hs' hkk
      exact frontalKeys_disjoint l hnd ht hs' (by omega) k hk hkk
    have hstabP : ∀ pk ∈ parentKeys (l.getD t default),
        (l.foldl solveStep x0) pk
          = ((l.take t).foldl solveStep x0) pk := by
      intro pk hpk
      obtain ⟨s, hs, hks⟩ := hpe t ht pk hpk
      have h1 : ((l.take t).foldl solveStep x0) pk
          = ((l.take (s + 1)).foldl solveStep x0) pk := by
        apply procState_stable l x0 pk (s + 1) t (by omega) (by omega)
        intro u hu hu' hkk
        exact frontalKeys_disjoint l hnd (by omega) (by omega) (by omega)
          pk hks hkk
      have h2 : (l.foldl solveStep x0) pk
          = ((l.take (s + 1)).foldl solveStep x0) pk := by
        rw [hfinal]
        apply procState_stable l x0 pk (s + 1) l.length (by omega) le_rfl
        intro u hu hu' hkk
        exact frontalKeys_disjoint l hnd (by omega) (by omega) (by omega)
          pk hks hkk
      rw [h1, h2]
    have hstep : (l.take (t + 1)).foldl solveStep x0
        = solveStep ((l.take t).foldl solveStep x0) (l.getD t default) :=
      foldl_take_succ solveStep l t ht x0
    have hgather : gatherFrontals (l.getD t default)
        ((l.take (t + 1)).foldl solveStep x0)
        = solveVec (l.getD t default)
            (parentVals (l.getD t default) ((l.take t).foldl solveStep x0)) := by
      rw [hstep]
      exact gather_assignFrontals (l.getD t default).frontals _ _
        (frontalKeys_nodup_at l hnd ht) (solveVec_length _ _)
    calc gatherFrontals (l.getD t default) (l.foldl solveStep x0)
        = gatherFrontals (l.getD t default)
            ((l.take (t + 1)).foldl solveStep x0) :=
          gatherFrontals_congr _ _ _ hstabF
      _ = solveVec (l.getD t default)
            (parentVals (l.getD t default) ((l.take t).foldl solveStep x0)) :=
          hgather
      _ = solveVec (l.getD t default)
            (parentVals (l.getD t default) (l.foldl solveStep x0)) := by
          rw [parentVals_congr _ _ _ (fun k hk => (hstabP k hk).symm)]

/-- Reversal preserves distinctness of the frontal keys. -/
theorem frontalsNodup_reverse (bn : List GaussianConditional)
    (hnd : FrontalsNodup bn) : FrontalsNodup bn.reverse := by
  unfold FrontalsNodup at *
  have hperm : ((bn.map frontalKeys).flatten).Perm
      ((bn.reverse.map frontalKeys).flatten) :=
    List.Perm.flatten (List.Perm.map frontalKeys (List.reverse_perm bn).symm)
  exact hperm.nodup hnd

/-- Reading the reversed net at position `t` reads the net at position
`length − 1 − t`. -/
theorem getD_reverse (bn : List GaussianConditional) (t : ℕ)
    (ht : t < bn.length) :
    bn.reverse.getD t default = bn.getD (bn.length - 1 - t) default := by
  rw [List.getD_eq_getElem _ default (by simpa using ht),
      List.getD_eq_getElem _ default (by omega)]
  exact List.getElem_reverse _

/-- In the reversed (solve-order) net, every parent is a frontal of an
earlier-processed conditional. -/
theorem closedParents_reverse (bn : List GaussianConditional)
    (hcl : ClosedParents bn) :
    ∀ t, t < bn.reverse.length →
      ∀ pk ∈ parentKeys (bn.reverse.getD t default),
        ∃ s, s < t ∧ pk ∈ frontalKeys (bn.reverse.getD s default) := by
  intro t ht pk hpk
  rw [List.length_reverse] at ht
  rw [getD_reverse bn t ht] at hpk
  obtain ⟨j, hj, hij, hk⟩ := hcl (bn.length - 1 - t) (by omega) pk hpk
  refine ⟨bn.length - 1 - j, by omega, ?_⟩
  rw [getD_reverse bn (bn.length - 1 - j) (by omega)]
  have hjj : bn.length - 1 - (bn.length - 1 - j) = j := by omega
  rw [hjj]
  exact hk

/-- C4: for every Gaussian Bayes net (pairwise-distinct frontal keys, every
parent a frontal of a later-stored conditional), `optimizeInPlace` visits the
conditionals in reverse storage order (last added first); when each
conditional is solved all its parents already have values; and each
conditional's final frontal values equal its back-substituted solution
against the final parent values. -/
theorem optimizeInPlace_reverse_backsub (bn : List GaussianConditional)
    (x0 : VectorValues) (hnd : FrontalsNodup bn) (hcl : ClosedParents bn) :
    optimizeInPlace bn x0 = bn.reverse.foldl solveStep x0 ∧
    (∀ t, t < bn.length → ∀ pk ∈ parentKeys (bn.reverse.getD t default),
      ((solveState bn x0 t) pk).isSome) ∧
    (∀ i, i < bn.length →
      gatherFrontals (bn.getD i default) (optimizeInPlace bn x0)
        = solveVec (bn.getD i default)
            (parentVals (bn.getD i default) (optimizeInPlace bn x0))) := by
  obtain ⟨g1, g2⟩ := foldl_solve_spec bn.reverse x0
    (frontalsNodup_reverse bn hnd) (closedParents_reverse bn hcl)
  refine ⟨rfl, ?_, ?_⟩
  · intro t ht pk hpk
    exact g1 t (by simpa using ht) pk hpk
  · intro i hi
    have hlt : bn.length - 1 - i < bn.length := by omega
    have h2 := g2 (bn.length - 1 - i) (by simpa using hlt)
    rw [getD_reverse bn (bn.length - 1 - i) hlt] at h2
    have heq : bn.length - 1 - (bn.length - 1 - i) = i := by omega
    rw [heq] at h2
    exact h2

/-- Witness for C4 on the two-conditional net `bnW` starting from the empty
assignment. -/
theorem optimizeInPlace_reverse_backsub_witness :
    FrontalsNodup bnW ∧ ClosedParents bnW ∧
    (optimizeInPlace bnW x0W = bnW.reverse.foldl solveStep x0W ∧
     (∀ t, t < bnW.length → ∀ pk ∈ parentKeys (bnW.reverse.getD t default),
       ((solveState bnW x0W t) pk).isSome) ∧
     (∀ i, i < bnW.length →
       gatherFrontals (bnW.getD i default) (optimizeInPlace bnW x0W)
         = solveVec (bnW.getD i default)
             (parentVals (bnW.getD i default) (optimizeInPlace bnW x0W)))) :=
  ⟨by decide, by decide,
    optimizeInPlace_reverse_backsub bnW x0W (by decide) (by decide)⟩

/-- Exponential of a sum of logarithms of positive reals is their product. -/
theorem exp_sum_log (l : List ℝ) (h : ∀ x ∈ l, 0 < x) :
    Real.exp ((l.map Real.log).sum) = l.prod := by
  induction l with
  | nil => simp
  | cons a l ih =>
      simp only [List.map_cons, List.sum_cons, List.prod_cons]
      rw [Real.exp_add, Real.exp_log (h a (by simp)),
        ih (fun x hx => h x (by simp [hx]))]

/-- The diagonal entries of the whole net, flattened, as reals. -/
theorem determinant_eq_exp_flat (bn : List GaussianConditional) :
    determinant bn
      = Real.exp (((bn.flatMap diagEntries).map
          (fun q : ℚ => Real.log (q : ℝ))).sum) ∧
    diagProd bn = ((bn.flatMap diagEntries).map (fun q : ℚ => (q : ℝ))).prod := by
  constructor
  · unfold determinant
    congr 1
    induction bn with
    | nil => rfl
    | cons c bn ih =>
        simp only [List.map_cons, List.sum_cons, List.flatMap_cons,
          List.map_append, List.sum_append, ih]
        rfl
  · unfold diagProd
    induction bn with
    | nil => rfl
    | cons c bn ih =>
        simp only [List.map_cons, List.prod_cons, List.flatMap_cons,
          List.map_append, List.prod_append, ih]

/-- C6 (counterexample): on the one-conditional net whose `R` diagonal entry
is `-1`, `determinant` (the exponential of the summed log-diagonals) does
not return the product of the diagonal entries: the former is `1`, the
latter `-1`. -/
theorem determinant_negative_diagonal_counterexample :
    determinant bnNeg ≠ diagProd bnNeg := by
  have h1 : determinant bnNeg = 1 := by
    simp [determinant, bnNeg, logDetConditional, diagEntries, cNeg, fdim,
      getR, List.range_succ, Real.log_neg_eq_log]
  have h2 : diagProd bnNeg = -1 := by
    simp [diagProd, bnNeg, diagEntries, cNeg, fdim, getR, List.range_succ]
  rw [h1, h2]
  norm_num

/-- C6 (amended): for every Gaussian Bayes net all of whose `R` diagonal
entries are positive, `determinant` — computed as the exponential of the sum
of the logarithms of the diagonal entries — equals the product of the
diagonal entries of all conditionals' `R` matrices. -/
theorem determinant_eq_diagProd (bn : List GaussianConditional)
    (hpos : ∀ c ∈ bn, ∀ q ∈ diagEntries c, 0 < q) :
    determinant bn = diagProd bn := by
  obtain ⟨h1, h2⟩ := determinant_eq_exp_flat bn
  rw [h1, h2, ← exp_sum_log]
  · congr 1
    rw [List.map_map]
    rfl
  · intro x hx
    simp only [List.mem_map, List.mem_flatMap] at hx
    obtain ⟨q, ⟨c, hc, hqc⟩, rfl⟩ := hx
    exact_mod_cast hpos c hc q hqc

/-- Witness for C6 (amended) on the one-conditional net with `R = [2]`. -/
theorem determinant_eq_diagProd_witness :
    (∀ c ∈ bnPos, ∀ q ∈ diagEntries c, 0 < q) ∧
    determinant bnPos = diagProd bnPos :=
  have hpos : ∀ c ∈ bnPos, ∀ q ∈ diagEntries c, 0 < q := by
    intro c hc q hq
    simp only [bnPos, List.mem_singleton] at hc
    subst hc
    simp only [diagEntries, cPos, fdim, getR, List.mem_map] at hq
    obtain ⟨i, -, rfl⟩ := hq
    norm_num
  ⟨hpos, determinant_eq_diagProd bnPos hpos⟩

/-- C5 (counterexample): on the net `bnBad` — legal under the data-model
invariant of §3, since the parent key 0 of the second conditional is an
external variable with no conditional in the net — `matrix()` places the `S`
block at the default-inserted offset `0`, producing the nonzero entry `5`
strictly below the main diagonal (row 1, column 0, inside the `2 × 2`
result). -/
theorem matrix_not_upper_triangular_counterexample :
    mappingN bnBad = 2 ∧ matrixR bnBad (1, 0) = 5 := by
  constructor
  · simp [mappingN, bnBad, cBad0, cBad1, fdim]
  · norm_num [matrixR, matrixWrites, mkMapping, mkMappingAux, bnBad, cBad0,
      cBad1, fdim, frontalOffsets, sortPairs, insertPair, condWrites,
      findConditional, frontalKeys, getR, parentOffsets, mapLookup,
      applyWrites, List.range_succ]

end BN

end GtsamCore
